import Mathlib

/-!
Verification of the CLI command-processor core
(`src/include/cli/detail/commandprocessor.h`).

The `CommandProcessor::NewCommand` dispatch is embedded as a function that,
given the collaborators' responses (a `SessionOracle`), the dispatched
`(Symbol, text)` pair and the observable state before the event, produces the
exact ordered list of collaborator calls (`Event`s) that the C++ code makes.
The observable state (`ProcState`: the terminal's edit line, the input
device's active flag, the session's output stream contents) after the event
is obtained by folding the event list through `doEvent`/`run`, each event
acting as the corresponding collaborator call does.
-/

namespace Cli

/-- The `Symbol` enumeration of `terminal.h`: the semantic classification of a
completed keystroke, the sole dispatch key of `NewCommand`. -/
inductive Symbol where
  | nothing
  | eof
  | command
  | down
  | up
  | tab
  | clear
deriving DecidableEq

/-- One observable collaborator call made by `NewCommand`: session calls
(`exit`, `feed`, `prompt`, `nextCmd`, `prevCmd`, `getCompletions`, `write` on
`OutStream()`), input-device calls (`deactivate`, `activate`), terminal calls
(`getLine`, `setLine`, `clearScreen`, `resetCursor`), and the invocation of
the common-prefix resolver (`invokeCommonPrefix`, recording its argument). -/
inductive Event where
  | exit
  | feed (t : String)
  | prompt
  | nextCmd
  | prevCmd (l : String)
  | getCompletions (l : String)
  | invokeCommonPrefix (v : List String)
  | deactivate
  | activate
  | getLine
  | setLine (t : String)
  | clearScreen
  | resetCursor
  | write (s : String)
deriving DecidableEq

/-- The collaborators' responses during one event: what `Session.NextCmd()`,
`Session.PreviousCmd(line)` and `Session.GetCompletions(line)` return. -/
structure SessionOracle where
  nextCmd : String
  prevCmd : String → String
  getCompletions : String → List String

/-- The observable state the processor's calls act on: the terminal's edit
line buffer, the input device's active flag, and the accumulated contents of
the session's output stream. -/
structure ProcState where
  line : String
  inputActive : Bool
  out : String
deriving DecidableEq

/-- `Event.isSessionOp e` is `true` exactly when `e` is an interaction with
the session: `Exit`, `Feed`, `Prompt`, `NextCmd`, `PreviousCmd`,
`GetCompletions`, or a write to `Session.OutStream()`. -/
def Event.isSessionOp : Event → Bool
  | Event.exit => true
  | Event.feed _ => true
  | Event.prompt => true
  | Event.nextCmd => true
  | Event.prevCmd _ => true
  | Event.getCompletions _ => true
  | Event.write _ => true
  | _ => false

/-- The effect of one collaborator call on the observable state:
`DeactivateInput`/`ActivateInput` toggle the active flag, `SetLine` replaces
the edit buffer, a stream write appends to the output; the remaining calls
leave the tracked state unchanged. -/
def doEvent (st : ProcState) (e : Event) : ProcState :=
  match e with
  | Event.deactivate => { st with inputActive := false }
  | Event.activate => { st with inputActive := true }
  | Event.setLine t => { st with line := t }
  | Event.write s => { st with out := st.out ++ s }
  | _ => st

/-- Folding a call sequence through `doEvent`: the observable state after the
calls. -/
def run (st : ProcState) (es : List Event) : ProcState :=
  es.foldl doEvent st

/-- The longest common prefix of two character lists. -/
def lcp2 : List Char → List Char → List Char
  | a :: as, b :: bs => if a = b then a :: lcp2 as bs else []
  | _, _ => []

/-- Modelled from the spec: `CommonPrefix` of `commonprefix.h` is not among
the repository files given, only its call site in `commandprocessor.h` is.
Per the spec (§4.2): given the ordered candidate sequence, return the longest
string that is a prefix of every element, by exact character equality; on the
(guarded-against) empty input we return the empty string. -/
def CommonPrefix (completions : List String) : String :=
  match completions with
  | [] => ""
  | s :: rest => String.mk (rest.foldl (fun acc t => lcp2 acc t.data) s.data)

/-- The listing text of the `tab` branch: `items += '\t' + cmd` folded over
the candidates, starting from the empty string. -/
def listingItems (completions : List String) : String :=
  completions.foldl (fun items cmd => items ++ ("\t" ++ cmd)) ""

/-- `CommandProcessor::NewCommand` (commandprocessor.h, lines 93-164): the
ordered list of collaborator calls the dispatch makes for the symbol, given
the state before the event and the collaborators' responses. -/
def NewCommand (session : SessionOracle) (s : Symbol × String)
    (st : ProcState) : List Event :=
  match s.1 with
  | Symbol.nothing => []
  | Symbol.eof => [Event.exit]
  | Symbol.command =>
      [Event.deactivate, Event.feed s.2, Event.prompt, Event.activate]
  | Symbol.down => [Event.nextCmd, Event.setLine session.nextCmd]
  | Symbol.up =>
      let line := st.line
      [Event.getLine, Event.prevCmd line, Event.setLine (session.prevCmd line)]
  | Symbol.tab =>
      let line := st.line
      let completions := session.getCompletions line
      match completions with
      | [] => [Event.getLine, Event.getCompletions line]
      | [c] =>
          [Event.getLine, Event.getCompletions line,
           Event.setLine (c.push ' ')]
      | _ =>
          let cp := CommonPrefix completions
          if cp.length > line.length then
            [Event.getLine, Event.getCompletions line,
             Event.invokeCommonPrefix completions, Event.setLine cp]
          else
            [Event.getLine, Event.getCompletions line,
             Event.invokeCommonPrefix completions,
             Event.write "\n", Event.write (listingItems completions),
             Event.write "\n", Event.prompt, Event.resetCursor,
             Event.setLine line]
  | Symbol.clear =>
      let currentLine := st.line
      [Event.getLine, Event.clearScreen, Event.prompt, Event.resetCursor,
       Event.setLine currentLine]

theorem lcp2_prefix_left : ∀ (a b : List Char), lcp2 a b <+: a := by
  intro a
  induction a with
  | nil => intro b; cases b <;> simp [lcp2]
  | cons x xs ih =>
      intro b
      cases b with
      | nil => simp [lcp2]
      | cons y ys =>
          by_cases hxy : x = y
          · subst hxy
            simp only [lcp2, if_pos rfl]
            exact List.cons_prefix_cons.mpr ⟨rfl, ih ys⟩
          · simp [lcp2, hxy]

theorem lcp2_prefix_right : ∀ (a b : List Char), lcp2 a b <+: b := by
  intro a
  induction a with
  | nil => intro b; cases b <;> simp [lcp2]
  | cons x xs ih =>
      intro b
      cases b with
      | nil => simp [lcp2]
      | cons y ys =>
          by_cases hxy : x = y
          · subst hxy
            simp only [lcp2, if_pos rfl]
            exact List.cons_prefix_cons.mpr ⟨rfl, ih ys⟩
          · simp [lcp2, hxy]

theorem prefix_lcp2 : ∀ (c a b : List Char), c <+: a → c <+: b →
    c <+: lcp2 a b := by
  intro c
  induction c with
  | nil => intro a b _ _; exact List.nil_prefix
  | cons z zs ih =>
      intro a b ha hb
      obtain ⟨t, ht⟩ := ha
      obtain ⟨u, hu⟩ := hb
      subst ht hu
      simp only [List.cons_append, lcp2, if_pos rfl]
      exact List.cons_prefix_cons.mpr
        ⟨rfl, ih _ _ (List.prefix_append zs t) (List.prefix_append zs u)⟩

theorem foldl_lcp2_prefix_acc : ∀ (ss : List String) (acc : List Char),
    ss.foldl (fun acc t => lcp2 acc t.data) acc <+: acc := by
  intro ss
  induction ss with
  | nil => intro acc; exact List.prefix_refl acc
  | cons u ts ih =>
      intro acc
      exact (ih (lcp2 acc u.data)).trans (lcp2_prefix_left acc u.data)

theorem foldl_lcp2_prefix_mem : ∀ (ss : List String) (acc : List Char)
    (t : String), t ∈ ss →
    ss.foldl (fun acc t => lcp2 acc t.data) acc <+: t.data := by
  intro ss
  induction ss with
  | nil => intro acc t ht; exact absurd ht (List.not_mem_nil t)
  | cons u ts ih =>
      intro acc t ht
      rcases List.mem_cons.mp ht with h | h
      · subst h
        exact (foldl_lcp2_prefix_acc ts (lcp2 acc t.data)).trans
          (lcp2_prefix_right acc t.data)
      · exact ih (lcp2 acc u.data) t h

theorem prefix_foldl_lcp2 : ∀ (ss : List String) (acc c : List Char),
    c <+: acc → (∀ t ∈ ss, c <+: t.data) →
    c <+: ss.foldl (fun acc t => lcp2 acc t.data) acc := by
  intro ss
  induction ss with
  | nil => intro acc c hacc _; exact hacc
  | cons u ts ih =>
      intro acc c hacc hmem
      exact ih (lcp2 acc u.data) c
        (prefix_lcp2 c acc u.data hacc (hmem u (List.mem_cons_self u ts)))
        (fun t ht => hmem t (List.mem_cons_of_mem u ht))

/-- `CommonPrefix S` is a prefix of every element of `S`. -/
theorem CommonPrefix_prefix_mem (S : List String) (s : String) (hs : s ∈ S) :
    (CommonPrefix S).data <+: s.data := by
  cases S with
  | nil => exact absurd hs (List.not_mem_nil s)
  | cons hd tl =>
      rcases List.mem_cons.mp hs with h | h
      · subst h
        exact foldl_lcp2_prefix_acc tl s.data
      · exact foldl_lcp2_prefix_mem tl hd.data s h

/-- Any common prefix of all elements of a non-empty `S` is a prefix of
`CommonPrefix S`. -/
theorem prefix_CommonPrefix (S : List String) (hS : S ≠ []) (q : String)
    (hq : ∀ s ∈ S, q.data <+: s.data) :
    q.data <+: (CommonPrefix S).data := by
  cases S with
  | nil => exact absurd rfl hS
  | cons hd tl =>
      exact prefix_foldl_lcp2 tl hd.data q.data
        (hq hd (List.mem_cons_self hd tl))
        (fun t ht => hq t (List.mem_cons_of_mem hd ht))

/-- C1: for every non-empty candidate list `S`, `CommonPrefix S` is a prefix
of every element of `S`; no strictly longer string is a prefix of every
element (any common prefix `q` has `q.length ≤ (CommonPrefix S).length`); if
all elements equal `e` the result is `e`; and if the elements share no first
character the result is the empty string. -/
theorem C1_CommonPrefix_correct (S : List String) (hS : S ≠ []) :
    (∀ s ∈ S, (CommonPrefix S).data <+: s.data)
    ∧ (∀ q : String, (∀ s ∈ S, q.data <+: s.data) →
        q.length ≤ (CommonPrefix S).length)
    ∧ (∀ e : String, (∀ s ∈ S, s = e) → CommonPrefix S = e)
    ∧ ((¬ ∃ ch : Char, ∀ s ∈ S, s.data.head? = some ch) →
        CommonPrefix S = "") := by
  refine ⟨fun s hs => CommonPrefix_prefix_mem S s hs, ?_, ?_, ?_⟩
  · intro q hq
    exact (prefix_CommonPrefix S hS q hq).length_le
  · intro e he
    have hmem : e ∈ S := by
      obtain ⟨s₀, hs₀⟩ := List.exists_mem_of_ne_nil S hS
      exact (he s₀ hs₀) ▸ hs₀
    have h1 : (CommonPrefix S).data <+: e.data :=
      CommonPrefix_prefix_mem S e hmem
    have h2 : e.data <+: (CommonPrefix S).data :=
      prefix_CommonPrefix S hS e (fun s hs => (he s hs) ▸ List.prefix_refl _)
    exact String.ext
      (h1.eq_of_length (Nat.le_antisymm h1.length_le h2.length_le))
  · intro hn
    cases hd : (CommonPrefix S).data with
    | nil => exact String.ext hd
    | cons ch r =>
        exact absurd
          ⟨ch, fun s hs => by
            obtain ⟨t, ht⟩ := hd ▸ CommonPrefix_prefix_mem S s hs
            rw [← ht]; rfl⟩
          hn

/-- Witness for C1 at the concrete candidate list from the spec's examples. -/
theorem C1_CommonPrefix_correct_witness :
    (∀ s ∈ (["status", "stop", "start"] : List String),
        (CommonPrefix ["status", "stop", "start"]).data <+: s.data)
    ∧ (∀ q : String,
        (∀ s ∈ (["status", "stop", "start"] : List String),
          q.data <+: s.data) →
        q.length ≤ (CommonPrefix ["status", "stop", "start"]).length)
    ∧ (∀ e : String,
        (∀ s ∈ (["status", "stop", "start"] : List String), s = e) →
        CommonPrefix ["status", "stop", "start"] = e)
    ∧ ((¬ ∃ ch : Char,
          ∀ s ∈ (["status", "stop", "start"] : List String),
            s.data.head? = some ch) →
        CommonPrefix ["status", "stop", "start"] = "") :=
  C1_CommonPrefix_correct ["status", "stop", "start"] (by decide)

/-- C2: handling a `command` symbol with text `txt` performs exactly, in this
order: deactivate the input source, `Session.Feed(txt)`, `Session.Prompt()`,
reactivate the input source. The input source is deactivated at the moment
`Feed` is invoked (the state after the events preceding `feed`, i.e. after
`take 1`, has `inputActive = false`), and reactivated after the whole event
(final `inputActive = true`). -/
theorem C2_command_input_exclusive (session : SessionOracle) (txt : String)
    (st : ProcState) :
    NewCommand session (Symbol.command, txt) st
      = [Event.deactivate, Event.feed txt, Event.prompt, Event.activate]
    ∧ (run st ((NewCommand session (Symbol.command, txt) st).take 1)).inputActive
        = false
    ∧ (run st (NewCommand session (Symbol.command, txt) st)).inputActive
        = true :=
  ⟨rfl, rfl, rfl⟩

/-- C3: a `tab` event whose completion query returns exactly one candidate
`c` leaves the edit buffer equal to `c` followed by exactly one space,
whatever the prior line content. -/
theorem C3_tab_single_candidate (session : SessionOracle) (txt c : String)
    (st : ProcState)
    (h : session.getCompletions st.line = [c]) :
    (run st (NewCommand session (Symbol.tab, txt) st)).line = c ++ " " := by
  simp only [NewCommand, h, run, List.foldl, doEvent]
  cases c with
  | mk data => rfl

/-- Witness for C3: line `"stat"`, single candidate `"status"`, the buffer
becomes `"status "`. -/
theorem C3_tab_single_candidate_witness :
    (run ⟨"stat", true, ""⟩
        (NewCommand ⟨"", fun l => l, fun _ => ["status"]⟩ (Symbol.tab, "")
          ⟨"stat", true, ""⟩)).line = "status" ++ " " :=
  C3_tab_single_candidate ⟨"", fun l => l, fun _ => ["status"]⟩ "" "status"
    ⟨"stat", true, ""⟩ rfl

/-- C6: a `clear` symbol performs, in order: read the buffer (`GetLine`),
clear the screen, `Session.Prompt()`, reset the cursor, and `SetLine` of the
captured buffer; the final edit buffer equals the buffer before the event. -/
theorem C6_clear_preserves_line (session : SessionOracle) (txt : String)
    (st : ProcState) :
    NewCommand session (Symbol.clear, txt) st
      = [Event.getLine, Event.clearScreen, Event.prompt, Event.resetCursor,
         Event.setLine st.line]
    ∧ (run st (NewCommand session (Symbol.clear, txt) st)).line = st.line :=
  ⟨rfl, rfl⟩

/-- C7: an `eof` symbol performs exactly one `Session.Exit()` call and
nothing else: the event list is exactly `[exit]`, so there is no `Feed`,
`Prompt`, `NextCmd`, `PreviousCmd`, `GetCompletions` or stream write, and the
observable state is unchanged. -/
theorem C7_eof_exit_only (session : SessionOracle) (txt : String)
    (st : ProcState) :
    NewCommand session (Symbol.eof, txt) st = [Event.exit]
    ∧ ((NewCommand session (Symbol.eof, txt) st).filter Event.isSessionOp).length
        = 1
    ∧ run st (NewCommand session (Symbol.eof, txt) st) = st :=
  ⟨rfl, rfl, rfl⟩

/-- C8: a `tab` event whose completion query returns the empty list does
nothing beyond the query itself: the only session interaction in the event
list is `GetCompletions`, and the observable state (edit buffer, output
stream) is unchanged. -/
theorem C8_tab_empty_noop (session : SessionOracle) (txt : String)
    (st : ProcState)
    (h : session.getCompletions st.line = []) :
    NewCommand session (Symbol.tab, txt) st
      = [Event.getLine, Event.getCompletions st.line]
    ∧ (NewCommand session (Symbol.tab, txt) st).filter Event.isSessionOp
        = [Event.getCompletions st.line]
    ∧ run st (NewCommand session (Symbol.tab, txt) st) = st := by
  refine ⟨?_, ?_, ?_⟩ <;>
    simp [NewCommand, h, run, doEvent, Event.isSessionOp]

/-- Witness for C8: line `"st"`, no candidates; the state is unchanged. -/
theorem C8_tab_empty_noop_witness :
    NewCommand ⟨"", fun l => l, fun _ => []⟩ (Symbol.tab, "") ⟨"st", true, ""⟩
      = [Event.getLine, Event.getCompletions (ProcState.mk "st" true "").line]
    ∧ (NewCommand ⟨"", fun l => l, fun _ => []⟩ (Symbol.tab, "")
          ⟨"st", true, ""⟩).filter Event.isSessionOp
      = [Event.getCompletions (ProcState.mk "st" true "").line]
    ∧ run ⟨"st", true, ""⟩
        (NewCommand ⟨"", fun l => l, fun _ => []⟩ (Symbol.tab, "")
          ⟨"st", true, ""⟩)
      = ⟨"st", true, ""⟩ :=
  C8_tab_empty_noop ⟨"", fun l => l, fun _ => []⟩ "" ⟨"st", true, ""⟩ rfl

/-- C4: a `tab` event with at least two candidates whose common prefix is not
strictly longer than the current line leaves the edit buffer equal to the
buffer before the event, while the listing output (`"\n"`, the tab-separated
items, `"\n"`) was written to the output stream. -/
theorem C4_tab_listing_preserves_line (session : SessionOracle) (txt : String)
    (st : ProcState) (c1 c2 : String) (cs : List String)
    (h : session.getCompletions st.line = c1 :: c2 :: cs)
    (hcp : (CommonPrefix (c1 :: c2 :: cs)).length ≤ st.line.length) :
    (run st (NewCommand session (Symbol.tab, txt) st)).line = st.line
    ∧ (run st (NewCommand session (Symbol.tab, txt) st)).out
        = st.out ++ "\n" ++ listingItems (c1 :: c2 :: cs) ++ "\n" := by
  have hlt : ¬ (CommonPrefix (c1 :: c2 :: cs)).length > st.line.length :=
    Nat.not_lt.mpr hcp
  refine ⟨?_, ?_⟩ <;> simp [NewCommand, h, hlt, run, doEvent]

/-- Witness for C4: candidates `["status", "stop", "start"]`, line `"st"`
(common prefix `"st"`, not longer than the line); the buffer stays `"st"`. -/
theorem C4_tab_listing_preserves_line_witness :
    (run ⟨"st", true, ""⟩
        (NewCommand ⟨"", fun l => l, fun _ => ["status", "stop", "start"]⟩
          (Symbol.tab, "") ⟨"st", true, ""⟩)).line = "st"
    ∧ (run ⟨"st", true, ""⟩
        (NewCommand ⟨"", fun l => l, fun _ => ["status", "stop", "start"]⟩
          (Symbol.tab, "") ⟨"st", true, ""⟩)).out
        = "" ++ "\n" ++ listingItems ["status", "stop", "start"] ++ "\n" :=
  C4_tab_listing_preserves_line
    ⟨"", fun l => l, fun _ => ["status", "stop", "start"]⟩ ""
    ⟨"st", true, ""⟩ "status" "stop" ["start"] rfl (by decide)

/-- C5: with at least two candidates, the event list is the prefix-extension
one (ending in `SetLine (CommonPrefix completions)` with no output) exactly
when the common prefix is strictly longer than the line; when the common
prefix's length equals the line's length, the listing branch is taken. -/
theorem C5_tab_prefix_extension_iff (session : SessionOracle) (txt : String)
    (st : ProcState) (c1 c2 : String) (cs : List String)
    (h : session.getCompletions st.line = c1 :: c2 :: cs) :
    (NewCommand session (Symbol.tab, txt) st
        = [Event.getLine, Event.getCompletions st.line,
           Event.invokeCommonPrefix (c1 :: c2 :: cs),
           Event.setLine (CommonPrefix (c1 :: c2 :: cs))]
      ↔ st.line.length < (CommonPrefix (c1 :: c2 :: cs)).length)
    ∧ ((CommonPrefix (c1 :: c2 :: cs)).length = st.line.length →
        NewCommand session (Symbol.tab, txt) st
          = [Event.getLine, Event.getCompletions st.line,
             Event.invokeCommonPrefix (c1 :: c2 :: cs),
             Event.write "\n", Event.write (listingItems (c1 :: c2 :: cs)),
             Event.write "\n", Event.prompt, Event.resetCursor,
             Event.setLine st.line]) := by
  constructor
  · by_cases hlt : (CommonPrefix (c1 :: c2 :: cs)).length > st.line.length
    · simp [NewCommand, h, hlt]
    · simp [NewCommand, h, hlt]
  · intro heq
    have hlt : ¬ (CommonPrefix (c1 :: c2 :: cs)).length > st.line.length := by
      omega
    simp [NewCommand, h, hlt]

/-- Witness for C5 at the spec's example 3: candidates `["stop", "stat"]`,
line `"st"`; the common prefix `"st"` is not strictly longer, so the listing
branch is taken. -/
theorem C5_tab_prefix_extension_iff_witness :
    (NewCommand ⟨"", fun l => l, fun _ => ["stop", "stat"]⟩ (Symbol.tab, "")
          ⟨"st", true, ""⟩
        = [Event.getLine, Event.getCompletions "st",
           Event.invokeCommonPrefix ["stop", "stat"],
           Event.setLine (CommonPrefix ["stop", "stat"])]
      ↔ ("st" : String).length < (CommonPrefix ["stop", "stat"]).length)
    ∧ ((CommonPrefix ["stop", "stat"]).length = ("st" : String).length →
        NewCommand ⟨"", fun l => l, fun _ => ["stop", "stat"]⟩ (Symbol.tab, "")
            ⟨"st", true, ""⟩
          = [Event.getLine, Event.getCompletions "st",
             Event.invokeCommonPrefix ["stop", "stat"],
             Event.write "\n", Event.write (listingItems ["stop", "stat"]),
             Event.write "\n", Event.prompt, Event.resetCursor,
             Event.setLine "st"]) :=
  C5_tab_prefix_extension_iff ⟨"", fun l => l, fun _ => ["stop", "stat"]⟩ ""
    ⟨"st", true, ""⟩ "stop" "stat" [] rfl

/-- C9: every invocation of `CommonPrefix` recorded during any `NewCommand`
dispatch receives a candidate list of at least two elements — in particular a
non-empty one — because the empty and singleton completion sets are handled
by the earlier branches. -/
theorem C9_CommonPrefix_call_guarded (session : SessionOracle) (sym : Symbol)
    (txt : String) (st : ProcState) (v : List String)
    (hv : Event.invokeCommonPrefix v ∈ NewCommand session (sym, txt) st) :
    2 ≤ v.length ∧ v ≠ [] := by
  cases sym with
  | tab =>
      rcases hcs : session.getCompletions st.line with _ | ⟨c1, _ | ⟨c2, cs⟩⟩
      · simp [NewCommand, hcs] at hv
      · simp [NewCommand, hcs] at hv
      · by_cases hlt : (CommonPrefix (c1 :: c2 :: cs)).length > st.line.length
        · simp [NewCommand, hcs, hlt] at hv
          subst hv
          exact ⟨by simp only [List.length_cons]; omega, by simp⟩
        · simp [NewCommand, hcs, hlt] at hv
          subst hv
          exact ⟨by simp only [List.length_cons]; omega, by simp⟩
  | nothing => simp [NewCommand] at hv
  | eof => simp [NewCommand] at hv
  | command => simp [NewCommand] at hv
  | down => simp [NewCommand] at hv
  | up => simp [NewCommand] at hv
  | clear => simp [NewCommand] at hv

/-- Witness for C9: candidates `["stop", "stat"]` at line `"st"` reach the
`CommonPrefix` invocation, and that argument has at least two elements. -/
theorem C9_CommonPrefix_call_guarded_witness :
    2 ≤ (["stop", "stat"] : List String).length
    ∧ (["stop", "stat"] : List String) ≠ [] :=
  C9_CommonPrefix_call_guarded ⟨"", fun l => l, fun _ => ["stop", "stat"]⟩
    Symbol.tab "" ⟨"st", true, ""⟩ ["stop", "stat"] (by decide)

/-- C10: in the `tab` listing branch the event list is exactly: `GetLine`,
`GetCompletions`, the `CommonPrefix` invocation, a `'\n'` write, a write of
the candidates each preceded by one `'\t'`, a `'\n'` write, `Prompt`,
`ResetCursor`, `SetLine` of the old line; the output-stream text written is
`"\n" ++ listingItems completions ++ "\n"`, and for
`["status", "stop", "start"]` the listing text is
`"\tstatus\tstop\tstart"`. -/
theorem C10_tab_listing_output (session : SessionOracle) (txt : String)
    (st : ProcState) (c1 c2 : String) (cs : List String)
    (h : session.getCompletions st.line = c1 :: c2 :: cs)
    (hcp : (CommonPrefix (c1 :: c2 :: cs)).length ≤ st.line.length) :
    NewCommand session (Symbol.tab, txt) st
      = [Event.getLine, Event.getCompletions st.line,
         Event.invokeCommonPrefix (c1 :: c2 :: cs),
         Event.write "\n", Event.write (listingItems (c1 :: c2 :: cs)),
         Event.write "\n", Event.prompt, Event.resetCursor,
         Event.setLine st.line]
    ∧ (run st (NewCommand session (Symbol.tab, txt) st)).out
        = st.out ++ "\n" ++ listingItems (c1 :: c2 :: cs) ++ "\n"
    ∧ listingItems ["status", "stop", "start"] = "\tstatus\tstop\tstart" := by
  have hlt : ¬ (CommonPrefix (c1 :: c2 :: cs)).length > st.line.length :=
    Nat.not_lt.mpr hcp
  refine ⟨?_, ?_, rfl⟩ <;> simp [NewCommand, h, hlt, run, doEvent]

/-- Witness for C10 at the spec's example 1: candidates
`["status", "stop", "start"]`, line `"st"`. -/
theorem C10_tab_listing_output_witness :
    NewCommand ⟨"", fun l => l, fun _ => ["status", "stop", "start"]⟩
        (Symbol.tab, "") ⟨"st", true, ""⟩
      = [Event.getLine, Event.getCompletions "st",
         Event.invokeCommonPrefix ["status", "stop", "start"],
         Event.write "\n",
         Event.write (listingItems ["status", "stop", "start"]),
         Event.write "\n", Event.prompt, Event.resetCursor,
         Event.setLine "st"]
    ∧ (run ⟨"st", true, ""⟩
        (NewCommand ⟨"", fun l => l, fun _ => ["status", "stop", "start"]⟩
          (Symbol.tab, "") ⟨"st", true, ""⟩)).out
        = "" ++ "\n" ++ listingItems ["status", "stop", "start"] ++ "\n"
    ∧ listingItems ["status", "stop", "start"] = "\tstatus\tstop\tstart" :=
  C10_tab_listing_output
    ⟨"", fun l => l, fun _ => ["status", "stop", "start"]⟩ ""
    ⟨"st", true, ""⟩ "status" "stop" ["start"] rfl (by decide)
